import Mathlib

/-!
Verification of `discover_factories` (src/discovery/factory.rs) of the amms-rs
repository: the batched log-scan → classify → aggregate → threshold-filter
pipeline for discovering AMM factory contracts.

Modelling conventions:
* `H256` / `H160` values are modelled as `Nat` (they are opaque identifiers
  here: only equality is ever used on them).
* The `Middleware` RPC provider is modelled as a `Provider` structure of pure
  fallible functions; the middleware error type `M::Error` is modelled as `Nat`.
* The `while from_block < current_block` loop is modelled with an explicit
  fuel parameter (structural recursion, so everything evaluates by `decide`);
  the fuel-exhaustion marker `RunResult.diverge` represents non-termination.
  `current_block + 1` units of fuel are proved sufficient whenever `step > 0`.
* The Rust indexing expression `log.topics[0]`, which panics on an empty
  topics vector, is embedded as an `Option`-returning access whose `none`
  branch produces the abort marker `RunResult.panic`.
* The `HashMap<H160, (Factory, u64)>` is modelled as an association list with
  at most one entry per key (`Table`); only set-like facts about the final
  collection are claimed, matching the spec's "no ordering guarantee".
-/

/-- The two discoverable factory kinds, from `DiscoverableFactory` in
src/discovery/factory.rs. -/
inductive DiscoverableFactory where
  | UniswapV2Factory
  | UniswapV3Factory
deriving DecidableEq

/-- Modelled from the spec: the fixed 32-byte event signature of the
UniswapV2 `PairCreated` event. The constant lives in `amm::uniswap_v2::factory`,
which is outside the provided sources; the spec only requires it to be a fixed
per-variant constant, distinct from the V3 one. -/
def PAIR_CREATED_EVENT_SIGNATURE : Nat :=
  0x0d3648bd0f6ba80134a33ba9275ac585d9d315f0ad8355cddefde31afa28d0e9

/-- Modelled from the spec: the fixed 32-byte event signature of the
UniswapV3 `PoolCreated` event (`amm::uniswap_v3::factory`, outside the
provided sources). -/
def POOL_CREATED_EVENT_SIGNATURE : Nat :=
  0x783cca1c0412dd0d695e784568c96da2e9c22ff989357a2e8b1d9b2b4e6b7118

/-- The method `DiscoverableFactory::discovery_event_signature`, lines 19-30 of
src/discovery/factory.rs. -/
def DiscoverableFactory.discovery_event_signature : DiscoverableFactory → Nat
  | .UniswapV2Factory => PAIR_CREATED_EVENT_SIGNATURE
  | .UniswapV3Factory => POOL_CREATED_EVENT_SIGNATURE

/-- Modelled from the spec: the fields of the `UniswapV2Factory` record the
discovery code writes (`address`, `creation_block`); the struct itself is in
`amm::uniswap_v2::factory`, outside the provided sources. Per the spec a
FactoryRecord is `{ variant, address, creation_block }`. -/
structure UniswapV2Factory where
  address : Nat
  creation_block : Nat
deriving DecidableEq

/-- Modelled from the spec: the fields of the `UniswapV3Factory` record the
discovery code writes (see `UniswapV2Factory`). -/
structure UniswapV3Factory where
  address : Nat
  creation_block : Nat
deriving DecidableEq

/-- The `Factory` enum (`amm::factory`, outside the provided sources): the
tagged union of the per-variant records, as used by the discovery code. -/
inductive Factory where
  | UniswapV2Factory (f : UniswapV2Factory)
  | UniswapV3Factory (f : UniswapV3Factory)
deriving DecidableEq

/-- The error type of the operation. `MiddlewareError` and
`BlockNumberNotFound` are the constructors used in src/discovery/factory.rs
(lines 54, 77, 96, 103); `UnknownEventSignature` is, modelled from the spec,
the error of the reverse signature lookup `Factory::try_from` ("Fails with
UnknownEventSignature if no variant matches"). -/
inductive AMMError where
  | MiddlewareError (e : Nat)
  | BlockNumberNotFound
  | UnknownEventSignature
deriving DecidableEq

/-- Outcome of running an embedded computation: normal result, one of the
declared errors, a Rust panic (out-of-bounds indexing), or fuel exhaustion
(standing for non-termination of the source loop). -/
inductive RunResult (α : Type) where
  | diverge
  | panic
  | err (e : AMMError)
  | ok (a : α)
deriving DecidableEq

/-- Modelled from the spec: `Factory::try_from(topic0)` (in `amm::factory`,
outside the provided sources) decodes a topic into a factory variant "using
the reverse of the Registry mapping", failing with `UnknownEventSignature`
when no variant matches. The variant records start with default (zero)
fields, which the discovery code then overwrites. -/
def Factory.try_from (t : Nat) : Except AMMError Factory :=
  if t = PAIR_CREATED_EVENT_SIGNATURE then .ok (.UniswapV2Factory ⟨0, 0⟩)
  else if t = POOL_CREATED_EVENT_SIGNATURE then .ok (.UniswapV3Factory ⟨0, 0⟩)
  else .error .UnknownEventSignature

/-- An ethers log entry, restricted to the fields read by the discovery code:
`address`, `topics`, `block_number` (an `Option`, absent on pending logs). -/
structure Log where
  address : Nat
  topics : List Nat
  block_number : Option Nat
deriving DecidableEq

/-- The aggregation table `HashMap<H160, (Factory, u64)>` of line 61,
modelled as an association list keyed by address. -/
abbrev Table := List (Nat × Factory × Nat)

/-- Key lookup of `identified_factories.get_mut(&log.address)` / `.insert`. -/
def lookupTable : Table → Nat → Option (Factory × Nat)
  | [], _ => none
  | (a', fc) :: rest, a => if a' = a then some fc else lookupTable rest a

/-- The update `*amms_length += 1` on the entry found by `get_mut` (line 82): increment
the count of the (unique) entry with the given address. -/
def incrTable : Table → Nat → Table
  | [], _ => []
  | (a', f, c) :: rest, a =>
    if a' = a then (a', f, c + 1) :: rest else (a', f, c) :: incrTable rest a

/-- Lines 89-106: `Factory::try_from(log.topics[0])?` followed by the
per-variant match that installs `address` and `creation_block` (the latter
via `log.block_number.ok_or(AMMError::BlockNumberNotFound)?`). The access
`log.topics[0]` panics when `topics` is empty; that branch is the `panic`
marker. -/
def mkRecord (l : Log) : RunResult Factory :=
  match l.topics[0]? with
  | none => .panic
  | some t0 =>
    match Factory.try_from t0 with
    | .error e => .err e
    | .ok factory =>
      match factory with
      | .UniswapV2Factory f2 =>
        match l.block_number with
        | none => .err .BlockNumberNotFound
        | some b => .ok (.UniswapV2Factory { f2 with address := l.address, creation_block := b })
      | .UniswapV3Factory f3 =>
        match l.block_number with
        | none => .err .BlockNumberNotFound
        | some b => .ok (.UniswapV3Factory { f3 with address := l.address, creation_block := b })

/-- Classification of a single log (the body of `for log in logs`,
lines 79-111): a known address only gets its count incremented; a new
address is decoded and inserted with count 0. -/
def processLog (st : Table) (l : Log) : RunResult Table :=
  match lookupTable st l.address with
  | some _ => .ok (incrTable st l.address)
  | none =>
    match mkRecord l with
    | .ok factory => .ok ((l.address, factory, 0) :: st)
    | .err e => .err e
    | .panic => .panic
    | .diverge => .diverge

/-- The `for log in logs` loop (lines 79-111): classify each log in order,
aborting on the first error. -/
def processLogs (st : Table) : List Log → RunResult Table
  | [] => .ok st
  | l :: rest =>
    match processLog st l with
    | .ok st' => processLogs st' rest
    | r => r

/-- The RPC provider collaborator (spec §6): `get_block_number` and
`get_logs` (the latter taking the topic0 signature list and the inclusive
block range of the filter). Middleware errors are modelled as `Nat`. -/
structure Provider where
  get_block_number : Except Nat Nat
  get_logs : List Nat → Nat → Nat → Except Nat (List Log)

/-- The scan loop `while from_block < current_block` (lines 64-114), with
explicit fuel. Returns the list of `(from_block, target_block)` ranges
actually requested from the provider together with the outcome. Each
iteration queries `[from_block, min(from_block + step - 1, current_block)]`,
classifies the returned logs, and advances `from_block` by `step`. -/
def scanT (p : Provider) (sigs : List Nat) (step current_block : Nat) :
    Nat → Nat → Table → List (Nat × Nat) × RunResult Table
  | 0, _, _ => ([], .diverge)
  | fuel + 1, from_block, st =>
    if current_block ≤ from_block then ([], .ok st)
    else
      let target_block := min (from_block + step - 1) current_block
      match p.get_logs sigs from_block target_block with
      | .error e => ([(from_block, target_block)], .err (.MiddlewareError e))
      | .ok logs =>
        match processLogs st logs with
        | .ok st' =>
          let rest := scanT p sigs step current_block fuel (from_block + step) st'
          ((from_block, target_block) :: rest.1, rest.2)
        | .err e => ([(from_block, target_block)], .err e)
        | .panic => ([(from_block, target_block)], .panic)
        | .diverge => ([(from_block, target_block)], .diverge)

/-- The sequence of inclusive block ranges the loop would request (same
recursion as `scanT`, with the provider interaction stripped). -/
def windowsFrom (step current_block : Nat) : Nat → Nat → List (Nat × Nat)
  | 0, _ => []
  | fuel + 1, from_block =>
    if current_block ≤ from_block then []
    else
      (from_block, min (from_block + step - 1) current_block) ::
        windowsFrom step current_block fuel (from_block + step)

/-- The full window sequence of a scan starting at block 0 (fuel
`current_block + 1` is sufficient for every `step > 0`). -/
def windows (step current_block : Nat) : List (Nat × Nat) :=
  windowsFrom step current_block (current_block + 1) 0

/-- The threshold filter (lines 116-125): keep the factory of every entry
whose count is at least the threshold. -/
def filtered_factories (number_of_amms_threshold : Nat) (table : Table) : List Factory :=
  (table.filter (fun e => number_of_amms_threshold ≤ e.2.2)).map (fun e => e.2.1)

/-- The operation `discover_factories` (lines 33-129): collect the event signatures,
query the chain head, run the windowed scan from block 0, and filter the
final table by the AMM-count threshold. -/
def discover_factories (factories : List DiscoverableFactory)
    (number_of_amms_threshold : Nat) (p : Provider) (step : Nat) :
    RunResult (List Factory) :=
  let event_signatures := factories.map DiscoverableFactory.discovery_event_signature
  match p.get_block_number with
  | .error e => .err (.MiddlewareError e)
  | .ok current_block =>
    match (scanT p event_signatures step current_block (current_block + 1) 0 []).2 with
    | .ok table => .ok (filtered_factories number_of_amms_threshold table)
    | .err e => .err e
    | .panic => .panic
    | .diverge => .diverge

/-- The topic0 part of the log filter built on line 48
(`Filter::new().topic0(event_signatures)`): a log matches when its first
topic is one of the registered signatures. -/
def topicMatch (sigs : List Nat) (l : Log) : Bool :=
  match l.topics.head? with
  | some t => sigs.contains t
  | none => false

/-- A log's position in the chain, for range filtering (defined for logs
that carry a block number; `getD 0` is never reached in the places this is
used with a well-formedness hypothesis). -/
def logHeight (l : Log) : Nat := l.block_number.getD 0

/-- The full `get_logs` filter semantics of an honest node: topic0 matches
and the log's block lies in the inclusive range. Pending logs (no block
number) are never returned by a ranged historical query. -/
def logMatches (sigs : List Nat) (a b : Nat) (l : Log) : Bool :=
  topicMatch sigs l && (match l.block_number with
    | some h => decide (a ≤ h) && decide (h ≤ b)
    | none => false)

/-- An ideal, never-failing provider over a fixed height-ordered log
database `L`: `get_logs` returns exactly the matching sub-list. Used to
state claims about "a fixed set of logs returned by the provider". -/
def pureProvider (current_block : Nat) (L : List Log) : Provider where
  get_block_number := .ok current_block
  get_logs := fun sigs a b => .ok (L.filter (logMatches sigs a b))

/-- The log database is ordered by block height, as a real chain's is. -/
def HeightSorted (L : List Log) : Prop :=
  L.Pairwise (fun x y => logHeight x ≤ logHeight y)

/-- Number of logs for address `a` in a stream (the "N matching logs"
of the off-by-one property). -/
def occ (a : Nat) (S : List Log) : Nat :=
  (S.filter (fun l => l.address == a)).length
/-! ### Concrete fixtures used to instantiate theorems with hypotheses -/

/-- A V2 creation log for address 5 at block 3. -/
def exampleLog1 : Log := ⟨5, [PAIR_CREATED_EVENT_SIGNATURE], some 3⟩

/-- A second log for address 5 with no topics and no block number: only the
known-address branch can accept it. -/
def exampleLog2 : Log := ⟨5, [], none⟩

/-- A V3 creation log for a new address with no block number. -/
def exampleLogNoBlock : Log := ⟨9, [POOL_CREATED_EVENT_SIGNATURE], none⟩

/-- A V2 creation log for address 5 at block 1 (a head-height log). -/
def exampleHeadLog : Log := ⟨5, [PAIR_CREATED_EVENT_SIGNATURE], some 1⟩

/-- A V2 creation log for address 5 at block 0. -/
def exampleLogZero : Log := ⟨5, [PAIR_CREATED_EVENT_SIGNATURE], some 0⟩

/-- A provider whose height query succeeds (head = 2) but whose second log
query (the window starting at block 1) fails with middleware error 7. -/
def failingProvider : Provider :=
  ⟨.ok 2, fun _ a _ => if a = 0 then .ok [] else .error 7⟩

/-- A provider whose height query fails with middleware error 9. -/
def failingHeightProvider : Provider := ⟨.error 9, fun _ _ _ => .ok []⟩


/-! ### Basic lemmas about the aggregation table -/

theorem lookupTable_incr_self (st : Table) (a : Nat) (f : Factory) (c : Nat)
    (h : lookupTable st a = some (f, c)) :
    lookupTable (incrTable st a) a = some (f, c + 1) := by
  induction st with
  | nil => simp [lookupTable] at h
  | cons e rest ih =>
    obtain ⟨a', f', c'⟩ := e
    by_cases ha : a' = a
    · subst ha
      simp [lookupTable] at h
      simp [incrTable, lookupTable, h.1, h.2]
    · simp [lookupTable, ha] at h
      simp [incrTable, lookupTable, ha, ih h]

theorem lookupTable_incr_ne (st : Table) (a b : Nat) (h : b ≠ a) :
    lookupTable (incrTable st a) b = lookupTable st b := by
  induction st with
  | nil => simp [incrTable]
  | cons e rest ih =>
    obtain ⟨a', f', c'⟩ := e
    by_cases ha : a' = a
    · subst ha
      have hb : a' ≠ b := fun hh => h hh.symm
      simp [incrTable, lookupTable, hb]
    · by_cases hb : a' = b
      · subst hb
        simp [incrTable, lookupTable, ha]
      · simp [incrTable, lookupTable, ha, hb, ih]

/-! ### Basic lemmas about the classifier -/

theorem processLog_ne_diverge (st : Table) (l : Log) :
    processLog st l ≠ .diverge := by
  unfold processLog mkRecord
  cases lookupTable st l.address <;> simp
  cases l.topics[0]? with
  | none => simp
  | some t0 =>
    simp only []
    cases Factory.try_from t0 with
    | error e => simp
    | ok factory =>
      cases factory <;> cases l.block_number <;> simp

theorem processLogs_ne_diverge (S : List Log) (st : Table) :
    processLogs st S ≠ .diverge := by
  induction S generalizing st with
  | nil => simp [processLogs]
  | cons l rest ih =>
    unfold processLogs
    cases hp : processLog st l with
    | ok st' => exact ih st'
    | diverge => exact absurd hp (processLog_ne_diverge st l)
    | err e => simp
    | panic => simp

theorem mkRecord_ne_mw (l : Log) (x : Nat) :
    mkRecord l ≠ .err (.MiddlewareError x) := by
  unfold mkRecord
  cases l.topics[0]? with
  | none => simp
  | some t0 =>
    by_cases h1 : t0 = PAIR_CREATED_EVENT_SIGNATURE
    · simp only [Factory.try_from, h1, if_true]
      cases l.block_number <;> simp
    · by_cases h2 : t0 = POOL_CREATED_EVENT_SIGNATURE
      · have hne : POOL_CREATED_EVENT_SIGNATURE ≠ PAIR_CREATED_EVENT_SIGNATURE := by decide
        simp only [Factory.try_from, h1, h2, if_neg hne, if_true]
        cases l.block_number <;> simp
      · simp [Factory.try_from, h1, h2]

theorem processLogs_ne_mw (S : List Log) (st : Table) (x : Nat) :
    processLogs st S ≠ .err (.MiddlewareError x) := by
  induction S generalizing st with
  | nil => simp [processLogs]
  | cons l rest ih =>
    unfold processLogs
    cases hp : processLog st l with
    | ok st' => exact ih st'
    | diverge => simp
    | panic => simp
    | err e =>
      intro hcontra
      simp at hcontra
      subst hcontra
      unfold processLog at hp
      revert hp
      cases lookupTable st l.address with
      | some fc => simp
      | none =>
        simp only []
        cases hm : mkRecord l with
        | ok f => simp
        | err e' =>
          simp only [RunResult.err.injEq]
          intro he
          subst he
          exact mkRecord_ne_mw l x hm
        | panic => simp
        | diverge => simp

theorem processLogs_append (st : Table) (A B : List Log) :
    processLogs st (A ++ B) =
      match processLogs st A with
      | .ok st' => processLogs st' B
      | r => r := by
  induction A generalizing st with
  | nil => simp [processLogs]
  | cons l rest ih =>
    simp only [List.cons_append, processLogs]
    cases processLog st l with
    | ok st' => exact ih st'
    | err e => rfl
    | panic => rfl
    | diverge => rfl

theorem mkRecord_ne_diverge (l : Log) : mkRecord l ≠ .diverge := by
  unfold mkRecord
  cases l.topics[0]? with
  | none => simp
  | some t0 =>
    cases h : Factory.try_from t0 with
    | error e => simp [h]
    | ok factory => cases factory <;> cases l.block_number <;> simp [h]

/-! ### Step characterizations of the classifier -/

theorem processLogs_cons (st : Table) (l : Log) (rest : List Log) :
    processLogs st (l :: rest) =
      match processLog st l with
      | .ok st' => processLogs st' rest
      | r => r := rfl

theorem processLog_known (st : Table) (l : Log) (fc : Factory × Nat)
    (h : lookupTable st l.address = some fc) :
    processLog st l = .ok (incrTable st l.address) := by
  simp only [processLog, h]

theorem processLog_new_ok (st : Table) (l : Log) (f : Factory)
    (h1 : lookupTable st l.address = none) (h2 : mkRecord l = .ok f) :
    processLog st l = .ok ((l.address, f, 0) :: st) := by
  simp only [processLog, h1, h2]

theorem processLog_new_err (st : Table) (l : Log) (e : AMMError)
    (h1 : lookupTable st l.address = none) (h2 : mkRecord l = .err e) :
    processLog st l = .err e := by
  simp only [processLog, h1, h2]

theorem processLog_new_panic (st : Table) (l : Log)
    (h1 : lookupTable st l.address = none) (h2 : mkRecord l = .panic) :
    processLog st l = .panic := by
  simp only [processLog, h1, h2]

/-! ### Counting logs per address -/

/-- The first log of the stream bearing a given address (the log that
establishes that address's factory record). -/
def firstLog (a : Nat) : List Log → Option Log
  | [] => none
  | l :: rest => if l.address = a then some l else firstLog a rest

theorem occ_cons (a : Nat) (l : Log) (S : List Log) :
    occ a (l :: S) = (if l.address = a then 1 else 0) + occ a S := by
  simp only [occ, List.filter_cons, beq_iff_eq]
  by_cases h : l.address = a <;> simp [h, Nat.add_comm]

theorem occ_pos_firstLog (a : Nat) (S : List Log) (h : 1 ≤ occ a S) :
    ∃ l, firstLog a S = some l := by
  induction S with
  | nil => simp [occ] at h
  | cons l rest ih =>
    by_cases ha : l.address = a
    · exact ⟨l, by simp [firstLog, ha]⟩
    · rw [occ_cons, if_neg ha] at h
      simp only [Nat.zero_add] at h
      obtain ⟨l', hl'⟩ := ih h
      exact ⟨l', by simp [firstLog, ha, hl']⟩

/-! ### The master aggregation lemmas: how `processLogs` transforms the
table entry of a fixed address. -/

/-- An address already in the table keeps its factory record unchanged and
gains exactly one count per matching log in a successfully processed
stream. -/
theorem processLogs_known (S : List Log) (st t : Table) (a : Nat) (f : Factory) (c : Nat)
    (h : lookupTable st a = some (f, c)) (hrun : processLogs st S = .ok t) :
    lookupTable t a = some (f, c + occ a S) := by
  induction S generalizing st c with
  | nil =>
    simp [processLogs] at hrun
    subst hrun
    simpa [occ] using h
  | cons l rest ih =>
    rw [occ_cons]
    cases hl : lookupTable st l.address with
    | some fc =>
      rw [processLogs_cons, processLog_known st l fc hl] at hrun
      by_cases ha : l.address = a
      · subst ha
        rw [h] at hl
        injection hl with hl'
        subst hl'
        rw [ih (incrTable st l.address) (c + 1)
          (lookupTable_incr_self st l.address f c h) hrun]
        rw [if_pos rfl]
        congr 2
        omega
      · have hlk : lookupTable (incrTable st l.address) a = some (f, c) := by
          rw [lookupTable_incr_ne st l.address a (fun hh => ha hh.symm)]
          exact h
        rw [ih _ c hlk hrun, if_neg ha]
        congr 2
        omega
    | none =>
      have ha : l.address ≠ a := by
        intro hh
        rw [hh, h] at hl
        exact Option.noConfusion hl
      cases hm : mkRecord l with
      | ok factory =>
        rw [processLogs_cons, processLog_new_ok st l factory hl hm] at hrun
        have hlk : lookupTable ((l.address, factory, 0) :: st) a = some (f, c) := by
          simp [lookupTable, ha, h]
        rw [ih _ c hlk hrun, if_neg ha]
        congr 2
        omega
      | err e =>
        rw [processLogs_cons, processLog_new_err st l e hl hm] at hrun
        exact absurd hrun (by simp)
      | panic =>
        rw [processLogs_cons, processLog_new_panic st l hl hm] at hrun
        exact absurd hrun (by simp)
      | diverge => exact absurd hm (mkRecord_ne_diverge l)

/-- An address absent from the table and from the stream stays absent. -/
theorem processLogs_absent (S : List Log) (st t : Table) (a : Nat)
    (h : lookupTable st a = none) (hrun : processLogs st S = .ok t)
    (hfind : firstLog a S = none) :
    lookupTable t a = none := by
  induction S generalizing st with
  | nil =>
    simp [processLogs] at hrun
    subst hrun
    exact h
  | cons l rest ih =>
    have ha : l.address ≠ a := by
      intro hh
      simp [firstLog, hh] at hfind
    rw [show firstLog a (l :: rest) = firstLog a rest from by simp [firstLog, ha]] at hfind
    cases hl : lookupTable st l.address with
    | some fc =>
      rw [processLogs_cons, processLog_known st l fc hl] at hrun
      refine ih (incrTable st l.address) ?_ hrun hfind
      rw [lookupTable_incr_ne st l.address a (fun hh => ha hh.symm)]
      exact h
    | none =>
      cases hm : mkRecord l with
      | ok factory =>
        rw [processLogs_cons, processLog_new_ok st l factory hl hm] at hrun
        refine ih ((l.address, factory, 0) :: st) ?_ hrun hfind
        simp [lookupTable, ha, h]
      | err e =>
        rw [processLogs_cons, processLog_new_err st l e hl hm] at hrun
        exact absurd hrun (by simp)
      | panic =>
        rw [processLogs_cons, processLog_new_panic st l hl hm] at hrun
        exact absurd hrun (by simp)
      | diverge => exact absurd hm (mkRecord_ne_diverge l)

/-- An address absent from the table whose first log in the stream is `l`
ends up with the record built from `l` and a count of one less than its
number of logs in the stream. -/
theorem processLogs_first (S : List Log) (st t : Table) (a : Nat) (l : Log)
    (h : lookupTable st a = none) (hrun : processLogs st S = .ok t)
    (hfind : firstLog a S = some l) :
    ∃ f, mkRecord l = .ok f ∧ lookupTable t a = some (f, occ a S - 1) := by
  induction S generalizing st with
  | nil => simp [firstLog] at hfind
  | cons l0 rest ih =>
    by_cases ha : l0.address = a
    · rw [show firstLog a (l0 :: rest) = some l0 from by simp [firstLog, ha]] at hfind
      injection hfind with hfind
      subst hfind
      have hl : lookupTable st l0.address = none := by rw [ha]; exact h
      cases hm : mkRecord l0 with
      | ok factory =>
        rw [processLogs_cons, processLog_new_ok st l0 factory hl hm] at hrun
        refine ⟨factory, rfl, ?_⟩
        have hlk : lookupTable ((l0.address, factory, 0) :: st) a = some (factory, 0) := by
          simp [lookupTable, ha]
        rw [processLogs_known rest _ t a factory 0 hlk hrun]
        rw [occ_cons, if_pos ha]
        congr 2
        omega
      | err e =>
        rw [processLogs_cons, processLog_new_err st l0 e hl hm] at hrun
        exact absurd hrun (by simp)
      | panic =>
        rw [processLogs_cons, processLog_new_panic st l0 hl hm] at hrun
        exact absurd hrun (by simp)
      | diverge => exact absurd hm (mkRecord_ne_diverge l0)
    · rw [show firstLog a (l0 :: rest) = firstLog a rest from by simp [firstLog, ha]] at hfind
      rw [occ_cons, if_neg ha]
      simp only [Nat.zero_add]
      cases hl : lookupTable st l0.address with
      | some fc =>
        rw [processLogs_cons, processLog_known st l0 fc hl] at hrun
        refine ih (incrTable st l0.address) ?_ hrun hfind
        rw [lookupTable_incr_ne st l0.address a (fun hh => ha hh.symm)]
        exact h
      | none =>
        cases hm : mkRecord l0 with
        | ok factory =>
          rw [processLogs_cons, processLog_new_ok st l0 factory hl hm] at hrun
          refine ih ((l0.address, factory, 0) :: st) ?_ hrun hfind
          simp [lookupTable, ha, h]
        | err e =>
          rw [processLogs_cons, processLog_new_err st l0 e hl hm] at hrun
          exact absurd hrun (by simp)
        | panic =>
          rw [processLogs_cons, processLog_new_panic st l0 hl hm] at hrun
          exact absurd hrun (by simp)
        | diverge => exact absurd hm (mkRecord_ne_diverge l0)

/-! ### The window sequence: bounds, disjointness, coverage -/

theorem mem_windowsFrom (step current_block : Nat) :
    ∀ fuel from_block w, w ∈ windowsFrom step current_block fuel from_block →
      from_block ≤ w.1 ∧ w.1 < current_block ∧
        w.2 = min (w.1 + step - 1) current_block := by
  intro fuel
  induction fuel with
  | zero => intro fb w hw; simp [windowsFrom] at hw
  | succ n ih =>
    intro fb w hw
    unfold windowsFrom at hw
    by_cases hend : current_block ≤ fb
    · rw [if_pos hend] at hw
      simp at hw
    · rw [if_neg hend] at hw
      rcases List.mem_cons.mp hw with hw | hw
      · subst hw
        exact ⟨Nat.le_refl _, Nat.lt_of_not_le hend, rfl⟩
      · obtain ⟨h1, h2, h3⟩ := ih (fb + step) w hw
        exact ⟨by omega, h2, h3⟩

theorem windowsFrom_pairwise (step current_block : Nat) (hstep : 0 < step) :
    ∀ fuel from_block,
      (windowsFrom step current_block fuel from_block).Pairwise
        (fun w w' => w.2 < w'.1) := by
  intro fuel
  induction fuel with
  | zero => intro fb; simp [windowsFrom]
  | succ n ih =>
    intro fb
    unfold windowsFrom
    by_cases hend : current_block ≤ fb
    · rw [if_pos hend]; simp
    · rw [if_neg hend]
      refine List.Pairwise.cons ?_ (ih (fb + step))
      intro w hw
      obtain ⟨h1, _, _⟩ := mem_windowsFrom step current_block n (fb + step) w hw
      simp only []
      omega

theorem windowsFrom_cover (step current_block : Nat) (hstep : 0 < step) :
    ∀ fuel from_block b, current_block - from_block < fuel →
      from_block ≤ b → b < current_block →
      ∃ w ∈ windowsFrom step current_block fuel from_block,
        w.1 ≤ b ∧ b ≤ w.2 := by
  intro fuel
  induction fuel with
  | zero => intro fb b hfuel _ _; omega
  | succ n ih =>
    intro fb b hfuel hfb hb
    have hend : ¬ current_block ≤ fb := by omega
    unfold windowsFrom
    rw [if_neg hend]
    by_cases hin : b ≤ min (fb + step - 1) current_block
    · exact ⟨(fb, min (fb + step - 1) current_block), List.mem_cons_self _ _, hfb, hin⟩
    · have hbig : fb + step ≤ b := by
        rcases Nat.le_total (fb + step - 1) current_block with hc | hc
        · rw [Nat.min_eq_left hc] at hin; omega
        · rw [Nat.min_eq_right hc] at hin; omega
      obtain ⟨w, hw, h1, h2⟩ := ih (fb + step) b (by omega) hbig hb
      exact ⟨w, List.mem_cons_of_mem _ hw, h1, h2⟩

/-! ### Splitting a height-ordered log list at a block boundary -/

theorem filter_append_of_separated (L : List Log) (P Q : Log → Bool) (m : Nat)
    (hs : L.Pairwise (fun x y => logHeight x ≤ logHeight y))
    (hP : ∀ x, P x = true → logHeight x < m)
    (hQ : ∀ x, Q x = true → m ≤ logHeight x) :
    L.filter P ++ L.filter Q = L.filter (fun x => P x || Q x) := by
  induction L with
  | nil => simp
  | cons x xs ih =>
    rw [List.pairwise_cons] at hs
    obtain ⟨hhead, htail⟩ := hs
    by_cases hPx : P x = true
    · have hQx : Q x = false := by
        cases hq : Q x
        · rfl
        · exact absurd (hQ x hq) (by have := hP x hPx; omega)
      simp only [List.filter_cons, hPx, hQx, Bool.true_or, if_true, Bool.false_eq_true,
        if_false, List.cons_append]
      rw [ih htail]
    · have hPx' : P x = false := by cases hp : P x; rfl; exact absurd hp hPx
      by_cases hQx : Q x = true
      · have hm : m ≤ logHeight x := hQ x hQx
        have hPxs : ∀ y ∈ xs, ¬ P y = true := by
          intro y hy hp
          have := hP y hp
          have := hhead y hy
          omega
        have hPnil : xs.filter P = [] := List.filter_eq_nil_iff.mpr hPxs
        simp only [List.filter_cons, hPx', hQx, Bool.or_true, if_true, Bool.false_eq_true,
          if_false, hPnil, List.nil_append]
        congr 1
        refine (List.filter_congr ?_).symm
        intro y hy
        cases hp : P y
        · simp
        · exact absurd hp (hPxs y hy)
      · have hQx' : Q x = false := by cases hq : Q x; rfl; exact absurd hq hQx
        simp only [List.filter_cons, hPx', hQx', Bool.false_or, Bool.false_eq_true, if_false]
        exact ih htail

/-! ### Unfolding and basic facts about the scan loop -/

theorem scanT_succ (p : Provider) (sigs : List Nat) (step current_block fuel fb : Nat)
    (st : Table) :
    scanT p sigs step current_block (fuel + 1) fb st =
      if current_block ≤ fb then ([], .ok st)
      else
        match p.get_logs sigs fb (min (fb + step - 1) current_block) with
        | .error e => ([(fb, min (fb + step - 1) current_block)], .err (.MiddlewareError e))
        | .ok logs =>
          match processLogs st logs with
          | .ok st' =>
            ((fb, min (fb + step - 1) current_block) ::
                (scanT p sigs step current_block fuel (fb + step) st').1,
              (scanT p sigs step current_block fuel (fb + step) st').2)
          | .err e => ([(fb, min (fb + step - 1) current_block)], .err e)
          | .panic => ([(fb, min (fb + step - 1) current_block)], .panic)
          | .diverge => ([(fb, min (fb + step - 1) current_block)], .diverge) := rfl

/-- With `step > 0` and fuel exceeding the remaining block span, the scan
loop completes: the fuel marker is never returned. -/
theorem scanT_ne_diverge (p : Provider) (sigs : List Nat) (step current_block : Nat)
    (hstep : 0 < step) :
    ∀ fuel from_block st, current_block - from_block < fuel →
      (scanT p sigs step current_block fuel from_block st).2 ≠ .diverge := by
  intro fuel
  induction fuel with
  | zero => intro fb st hfuel; omega
  | succ n ih =>
    intro fb st hfuel
    rw [scanT_succ]
    by_cases hend : current_block ≤ fb
    · rw [if_pos hend]; simp
    · rw [if_neg hend]
      cases hg : p.get_logs sigs fb (min (fb + step - 1) current_block) with
      | error e => simp
      | ok logs =>
        simp only []
        cases hpro : processLogs st logs with
        | ok st' => exact ih (fb + step) st' (by omega)
        | err e => simp
        | panic => simp
        | diverge => exact absurd hpro (processLogs_ne_diverge logs st)

theorem getLast?_cons_of_ne_nil (a : Nat × Nat) (l : List (Nat × Nat)) (h : l ≠ []) :
    (a :: l).getLast? = l.getLast? := by
  cases l with
  | nil => exact absurd rfl h
  | cons b bl => exact List.getLast?_cons_cons

/-- Whenever the scan loop ends in a `MiddlewareError`, the requests it
issued are exactly an initial segment of the window sequence, and the last
issued request is the one whose `get_logs` failed with the wrapped error:
no request is issued after the failure, and no table is returned. -/
theorem scanT_mw_trace (p : Provider) (sigs : List Nat) (step current_block : Nat) :
    ∀ fuel from_block st tr e,
      scanT p sigs step current_block fuel from_block st = (tr, .err (.MiddlewareError e)) →
      ∃ w, tr.getLast? = some w ∧ p.get_logs sigs w.1 w.2 = .error e ∧
        tr = (windowsFrom step current_block fuel from_block).take tr.length := by
  intro fuel
  induction fuel with
  | zero =>
    intro fb st tr e h
    rw [show scanT p sigs step current_block 0 fb st = ([], .diverge) from rfl] at h
    exact absurd (congrArg Prod.snd h) (by simp)
  | succ n ih =>
    intro fb st tr e h
    rw [scanT_succ] at h
    by_cases hend : current_block ≤ fb
    · rw [if_pos hend] at h
      exact absurd (congrArg Prod.snd h) (by simp)
    · rw [if_neg hend] at h
      cases hg : p.get_logs sigs fb (min (fb + step - 1) current_block) with
      | error e' =>
        rw [hg] at h
        simp only [Prod.mk.injEq] at h
        obtain ⟨htr, herr⟩ := h
        have he : e' = e := by
          injection herr with h1
          injection h1
        subst he
        subst htr
        refine ⟨(fb, min (fb + step - 1) current_block), rfl, hg, ?_⟩
        unfold windowsFrom
        rw [if_neg hend]
        rfl
      | ok logs =>
        rw [hg] at h
        simp only [] at h
        cases hpro : processLogs st logs with
        | ok st' =>
          rw [hpro] at h
          simp only [Prod.mk.injEq] at h
          obtain ⟨htr, herr⟩ := h
          have hrec : scanT p sigs step current_block n (fb + step) st' =
              ((scanT p sigs step current_block n (fb + step) st').1,
                .err (.MiddlewareError e)) := by
            rw [← herr]
          obtain ⟨w, hlast, hgl, htake⟩ := ih (fb + step) st' _ e hrec
          have hne : (scanT p sigs step current_block n (fb + step) st').1 ≠ [] := by
            intro hnil
            rw [hnil] at hlast
            exact Option.noConfusion hlast
          subst htr
          refine ⟨w, ?_, hgl, ?_⟩
          · rw [getLast?_cons_of_ne_nil _ _ hne]
            exact hlast
          · unfold windowsFrom
            rw [if_neg hend]
            simp only [List.length_cons, List.take_succ_cons]
            congr 1
        | err e' =>
          rw [hpro] at h
          simp only [Prod.mk.injEq] at h
          obtain ⟨htr, herr⟩ := h
          have : e' = .MiddlewareError e := by injection herr
          exact absurd (this ▸ hpro) (processLogs_ne_mw logs st e)
        | panic =>
          rw [hpro] at h
          exact absurd (congrArg Prod.snd h) (by simp)
        | diverge => exact absurd hpro (processLogs_ne_diverge logs st)

/-- Over an ideal provider with a height-ordered log database whose logs all
lie strictly below the head, the scan computes, for any positive `step` and
sufficient fuel, exactly one classifier pass over the logs at heights
`≥ from_block` — independently of `step`. -/
theorem scanT_pure (L : List Log) (sigs : List Nat) (step current_block : Nat)
    (hstep : 0 < step)
    (hs : L.Pairwise (fun x y => logHeight x ≤ logHeight y))
    (hlt : ∀ l ∈ L, ∃ h, l.block_number = some h ∧ h < current_block) :
    ∀ fuel from_block st, current_block - from_block < fuel →
      (scanT (pureProvider current_block L) sigs step current_block fuel from_block st).2 =
        processLogs st
          (L.filter (fun l => topicMatch sigs l && decide (from_block ≤ logHeight l))) := by
  intro fuel
  induction fuel with
  | zero => intro fb st hfuel; omega
  | succ n ih =>
    intro fb st hfuel
    by_cases hend : current_block ≤ fb
    · rw [scanT_succ, if_pos hend]
      have hnil : L.filter (fun l => topicMatch sigs l && decide (fb ≤ logHeight l)) = [] := by
        refine List.filter_eq_nil_iff.mpr ?_
        intro l hl
        obtain ⟨h, hbn, hhlt⟩ := hlt l hl
        simp only [logHeight, hbn, Option.getD_some, Bool.and_eq_true, decide_eq_true_eq,
          not_and]
        intro _
        omega
      rw [hnil]
      rfl
    · rw [scanT_succ, if_neg hend]
      set tgt := min (fb + step - 1) current_block with htgt
      have hgl : (pureProvider current_block L).get_logs sigs fb tgt =
          .ok (L.filter (logMatches sigs fb tgt)) := rfl
      rw [hgl]
      simp only []
      have hsplit : L.filter (logMatches sigs fb tgt) ++
          L.filter (fun l => topicMatch sigs l && decide (fb + step ≤ logHeight l)) =
          L.filter (fun x => logMatches sigs fb tgt x ||
            (topicMatch sigs x && decide (fb + step ≤ logHeight x))) := by
        refine filter_append_of_separated L _ _ (fb + step) hs ?_ ?_
        · intro x hx
          unfold logMatches at hx
          rw [Bool.and_eq_true] at hx
          obtain ⟨_, hx2⟩ := hx
          cases hbn : x.block_number with
          | none => rw [hbn] at hx2; exact absurd hx2 (by simp)
          | some h =>
            rw [hbn] at hx2
            rw [Bool.and_eq_true, decide_eq_true_eq, decide_eq_true_eq] at hx2
            have htgt' : tgt ≤ fb + step - 1 := Nat.min_le_left _ _
            simp only [logHeight, hbn, Option.getD_some]
            omega
        · intro x hx
          rw [Bool.and_eq_true, decide_eq_true_eq] at hx
          exact hx.2
      have hcong : L.filter (fun x => logMatches sigs fb tgt x ||
            (topicMatch sigs x && decide (fb + step ≤ logHeight x))) =
          L.filter (fun l => topicMatch sigs l && decide (fb ≤ logHeight l)) := by
        refine List.filter_congr ?_
        intro l hl
        obtain ⟨h, hbn, hhlt⟩ := hlt l hl
        have hh : logHeight l = h := by simp [logHeight, hbn]
        unfold logMatches
        rw [hbn, hh]
        cases htm : topicMatch sigs l
        · simp
        · simp only [Bool.true_and]
          rcases Nat.le_total (fb + step - 1) current_block with hmin | hmin
          · rw [htgt, Nat.min_eq_left hmin]
            by_cases h1 : fb ≤ h <;> by_cases h2 : h ≤ fb + step - 1 <;>
              by_cases h3 : fb + step ≤ h <;> simp [h1, h2, h3] <;> omega
          · rw [htgt, Nat.min_eq_right hmin]
            by_cases h1 : fb ≤ h <;> by_cases h2 : h ≤ current_block <;>
              by_cases h3 : fb + step ≤ h <;> simp [h1, h2, h3] <;> omega
      rw [← hcong, ← hsplit, processLogs_append]
      cases hpro : processLogs st (L.filter (logMatches sigs fb tgt)) with
      | ok st' => exact ih (fb + step) st' (by omega)
      | err e => rfl
      | panic => rfl
      | diverge => exact absurd hpro (processLogs_ne_diverge _ st)

/-- On a fully successful scan, the requests issued are exactly the window
sequence. -/
theorem scanT_ok_trace (p : Provider) (sigs : List Nat) (step current_block : Nat) :
    ∀ fuel from_block st t,
      (scanT p sigs step current_block fuel from_block st).2 = .ok t →
      (scanT p sigs step current_block fuel from_block st).1 =
        windowsFrom step current_block fuel from_block := by
  intro fuel
  induction fuel with
  | zero => intro fb st t h; exact absurd h (by simp [scanT])
  | succ n ih =>
    intro fb st t h
    rw [scanT_succ] at h ⊢
    unfold windowsFrom
    by_cases hend : current_block ≤ fb
    · rw [if_pos hend]
      rw [if_pos hend]
    · rw [if_neg hend] at h ⊢
      rw [if_neg hend]
      cases hg : p.get_logs sigs fb (min (fb + step - 1) current_block) with
      | error e => rw [hg] at h; exact absurd h (by simp)
      | ok logs =>
        rw [hg] at h
        simp only [] at h ⊢
        cases hpro : processLogs st logs with
        | ok st' =>
          rw [hpro] at h
          exact congrArg (List.cons (fb, min (fb + step - 1) current_block))
            (ih (fb + step) st' t h)
        | err e =>
          rw [hpro] at h
          exact RunResult.noConfusion h
        | panic =>
          rw [hpro] at h
          exact RunResult.noConfusion h
        | diverge => exact absurd hpro (processLogs_ne_diverge logs st)

/-- Helper for partition invariance: over the ideal provider, the final
scan outcome is the same for any two positive window sizes. -/
theorem scan_outcome_eq_of_steps (sigs : List Nat) (current_block : Nat) (L : List Log)
    (step1 step2 : Nat) (h1 : 0 < step1) (h2 : 0 < step2)
    (hs : HeightSorted L)
    (hlt : ∀ l ∈ L, ∃ h, l.block_number = some h ∧ h < current_block) :
    (scanT (pureProvider current_block L) sigs step1 current_block
        (current_block + 1) 0 []).2 =
      (scanT (pureProvider current_block L) sigs step2 current_block
        (current_block + 1) 0 []).2 := by
  rw [scanT_pure L sigs step1 current_block h1 hs hlt (current_block + 1) 0 [] (by omega),
    scanT_pure L sigs step2 current_block h2 hs hlt (current_block + 1) 0 [] (by omega)]

/-! ## The claims -/

/-- C2 (counterexample): with head height 1 and step 1 (both > 0) the scanner
issues only the window [0, 0]; block height 1 = H lies in no window, so the
windows do not cover every height in [0, H]. -/
theorem c2_counterexample :
    0 < 1 ∧ windows 1 1 = [(0, 0)] ∧
      ∀ w ∈ windows 1 1, ¬ (w.1 ≤ 1 ∧ 1 ≤ w.2) := by decide

/-- C2 (amended): for every head height and every step > 0, the windows the
scanner queries are pairwise non-overlapping (each ends strictly before the
next begins), stay within the chain range, and cover every height in
[0, H-1]; the head block H itself may be skipped (e.g. whenever step
divides H), so coverage of the full [0, H] fails in general. Additionally,
on a fully successful scan the ranges actually requested by the loop are
exactly this window sequence. -/
theorem c2_window_coverage (step current_block : Nat) (hstep : 0 < step) :
    (windows step current_block).Pairwise (fun w w' => w.2 < w'.1) ∧
    (∀ w ∈ windows step current_block, w.2 ≤ current_block) ∧
    (∀ b, b < current_block →
      ∃ w ∈ windows step current_block, w.1 ≤ b ∧ b ≤ w.2) ∧
    (∀ p sigs st t, (scanT p sigs step current_block (current_block + 1) 0 st).2 = .ok t →
      (scanT p sigs step current_block (current_block + 1) 0 st).1 =
        windows step current_block) := by
  refine ⟨windowsFrom_pairwise step current_block hstep _ _, ?_, ?_, ?_⟩
  · intro w hw
    obtain ⟨_, _, h3⟩ := mem_windowsFrom step current_block _ _ w hw
    rw [h3]
    exact Nat.min_le_right _ _
  · intro b hb
    exact windowsFrom_cover step current_block hstep (current_block + 1) 0 b
      (by omega) (Nat.zero_le b) hb
  · intro p sigs st t h
    exact scanT_ok_trace p sigs step current_block (current_block + 1) 0 st t h

/-- C2 (witness): the amended statement instantiated at step 2, head 5. -/
theorem c2_witness :
    (windows 2 5).Pairwise (fun w w' => w.2 < w'.1) ∧
    (∀ w ∈ windows 2 5, w.2 ≤ 5) ∧
    (∀ b, b < 5 → ∃ w ∈ windows 2 5, w.1 ≤ b ∧ b ≤ w.2) ∧
    (∀ p sigs st t, (scanT p sigs 2 5 6 0 st).2 = .ok t →
      (scanT p sigs 2 5 6 0 st).1 = windows 2 5) :=
  c2_window_coverage 2 5 (by decide)

/-- C9: under the caller precondition step > 0, the scan loop terminates for
every head height: with fuel exceeding the remaining block span (in
particular, the `current_block + 1` used by `discover_factories`), the
fuel-exhaustion marker — the embedding's stand-in for non-termination of
`while from_block < current_block` — is never reached, because `from_block`
grows by `step ≥ 1` per iteration until it reaches `current_block`. -/
theorem c9_termination (p : Provider) (sigs : List Nat)
    (step current_block fuel from_block : Nat) (st : Table)
    (hstep : 0 < step) (hfuel : current_block - from_block < fuel) :
    (scanT p sigs step current_block fuel from_block st).2 ≠ .diverge ∧
    (scanT p sigs step current_block (current_block + 1) 0 []).2 ≠ .diverge :=
  ⟨scanT_ne_diverge p sigs step current_block hstep fuel from_block st hfuel,
   scanT_ne_diverge p sigs step current_block hstep (current_block + 1) 0 [] (by omega)⟩

/-- C9 (witness): termination at a concrete provider, step 1, head 3. -/
theorem c9_witness :
    (scanT (pureProvider 3 []) [] 1 3 4 0 []).2 ≠ .diverge :=
  (c9_termination (pureProvider 3 []) [] 1 3 4 0 [] (by decide) (by decide)).1

/-- C1 (counterexample): head height 1, one matching log at block height 1
(the head). With step 1 the scan queries only [0, 0] and produces the empty
table; with step 2 it queries [0, 1] and records the factory — so two
positive window sizes produce different final aggregation tables for the
same provider log set. -/
theorem c1_counterexample :
    (scanT (pureProvider 1 [exampleHeadLog]) [PAIR_CREATED_EVENT_SIGNATURE]
        1 1 2 0 []).2 ≠
      (scanT (pureProvider 1 [exampleHeadLog]) [PAIR_CREATED_EVENT_SIGNATURE]
        2 1 2 0 []).2 := by decide

/-- C1 (amended): for a fixed head height and a fixed height-ordered log set
in which every log carries a block height strictly below the head, running
the scan with any two window sizes step1 > 0 and step2 > 0 produces an
identical final aggregation table (and `discover_factories` produces an
identical overall outcome). The restriction to heights below the head is
forced: a log at exactly the head height is fetched by some window sizes
and missed by others (see the counterexample). -/
theorem c1_partition_invariance (sigs : List Nat) (current_block : Nat) (L : List Log)
    (step1 step2 : Nat) (h1 : 0 < step1) (h2 : 0 < step2)
    (hs : HeightSorted L)
    (hlt : ∀ l ∈ L, ∃ h, l.block_number = some h ∧ h < current_block) :
    (scanT (pureProvider current_block L) sigs step1 current_block
        (current_block + 1) 0 []).2 =
      (scanT (pureProvider current_block L) sigs step2 current_block
        (current_block + 1) 0 []).2 ∧
    ∀ factories thr,
      discover_factories factories thr (pureProvider current_block L) step1 =
        discover_factories factories thr (pureProvider current_block L) step2 := by
  refine ⟨scan_outcome_eq_of_steps sigs current_block L step1 step2 h1 h2 hs hlt, ?_⟩
  intro factories thr
  have hbn : (pureProvider current_block L).get_block_number = .ok current_block := rfl
  simp only [discover_factories, hbn]
  rw [scan_outcome_eq_of_steps (factories.map DiscoverableFactory.discovery_event_signature)
    current_block L step1 step2 h1 h2 hs hlt]

/-- C1 (witness): the amended statement at a concrete one-log database whose
log lies below the head. -/
theorem c1_witness :
    (scanT (pureProvider 1 [exampleLogZero]) [PAIR_CREATED_EVENT_SIGNATURE]
        1 1 2 0 []).2 =
      (scanT (pureProvider 1 [exampleLogZero]) [PAIR_CREATED_EVENT_SIGNATURE]
        3 1 2 0 []).2 :=
  (c1_partition_invariance [PAIR_CREATED_EVENT_SIGNATURE] 1 [exampleLogZero] 1 3
    (by decide) (by decide)
    (by simp [HeightSorted])
    (by
      intro l hl
      rw [List.mem_singleton] at hl
      subst hl
      exact ⟨0, rfl, Nat.zero_lt_one⟩)).1

/-- C5: provider-error atomicity. (i) If the height query fails,
`discover_factories` immediately returns the wrapped `MiddlewareError`.
(ii) Whenever the scan loop ends in a `MiddlewareError`, the log requests it
issued form exactly an initial segment of the window sequence whose last
element is the failing `get_logs` request — no request is issued after the
failure — and the outcome carries no table, so every earlier window's
classifications are discarded. (iii) Any error outcome of the scan
propagates unchanged as the result of `discover_factories`: no partial
result is returned. -/
theorem c5_provider_error_atomicity :
    (∀ factories thr p step e, Provider.get_block_number p = .error e →
      discover_factories factories thr p step = .err (.MiddlewareError e)) ∧
    (∀ p sigs step current_block fuel from_block st tr e,
      scanT p sigs step current_block fuel from_block st = (tr, .err (.MiddlewareError e)) →
      ∃ w, tr.getLast? = some w ∧ Provider.get_logs p sigs w.1 w.2 = .error e ∧
        tr = (windowsFrom step current_block fuel from_block).take tr.length) ∧
    (∀ factories thr p step current_block em,
      Provider.get_block_number p = .ok current_block →
      (scanT p (factories.map DiscoverableFactory.discovery_event_signature) step
          current_block (current_block + 1) 0 []).2 = .err em →
      discover_factories factories thr p step = .err em) := by
  refine ⟨?_, ?_, ?_⟩
  · intro factories thr p step e h
    simp only [discover_factories, h]
  · intro p sigs step current_block fuel from_block st tr e h
    exact scanT_mw_trace p sigs step current_block fuel from_block st tr e h
  · intro factories thr p step current_block em hbn hscan
    simp only [discover_factories, hbn, hscan]

/-- C5 (witness): a provider whose second window's `get_logs` fails with
error 7 (and one whose height query fails with error 9), at step 1,
head 2. -/
theorem c5_witness :
    discover_factories [] 0 failingHeightProvider 1 = .err (.MiddlewareError 9) ∧
    ∃ w, ([(0, 0), (1, 1)] : List (Nat × Nat)).getLast? = some w ∧
      Provider.get_logs failingProvider [] w.1 w.2 = .error 7 ∧
      ([(0, 0), (1, 1)] : List (Nat × Nat)) =
        (windowsFrom 1 2 3 0).take ([(0, 0), (1, 1)] : List (Nat × Nat)).length :=
  ⟨c5_provider_error_atomicity.1 [] 0 failingHeightProvider 1 9 rfl,
   c5_provider_error_atomicity.2.1 failingProvider [] 1 2 3 0 [] [(0, 0), (1, 1)] 7
     (by decide)⟩

/-- C3: off-by-one count semantics — after a successful classification pass
from the empty table, an address that occurs in exactly N ≥ 1 of the
processed logs ends with event count N - 1 (the establishing log inserts
the record with count 0; each later log adds 1). -/
theorem c3_off_by_one_count (S : List Log) (t : Table) (a N : Nat)
    (hrun : processLogs [] S = .ok t) (hN : occ a S = N) (h1 : 1 ≤ N) :
    ∃ f, lookupTable t a = some (f, N - 1) := by
  subst hN
  obtain ⟨l, hl⟩ := occ_pos_firstLog a S h1
  obtain ⟨f, _, hlook⟩ := processLogs_first S [] t a l rfl hrun hl
  exact ⟨f, hlook⟩

/-- C3 (witness): address 5 occurs in exactly 2 logs (the second of which
has no topics and no block number), and ends with count 2 - 1 = 1. -/
theorem c3_witness :
    ∃ f, lookupTable [(5, Factory.UniswapV2Factory ⟨5, 3⟩, 1)] 5 = some (f, 2 - 1) :=
  c3_off_by_one_count [exampleLog1, exampleLog2]
    [(5, Factory.UniswapV2Factory ⟨5, 3⟩, 1)] 5 2 (by decide) (by decide) (by decide)

/-- C4: threshold filter semantics. A factory is in the filtered output iff
some table entry carries it with count ≥ threshold; threshold 0 keeps every
record; a threshold above every count yields the empty collection (not an
error); and on success `discover_factories` returns exactly the filter of
the scan's final table. -/
theorem c4_threshold_filter :
    (∀ thr table f, f ∈ filtered_factories thr table ↔
      ∃ a c, (a, f, c) ∈ table ∧ thr ≤ c) ∧
    (∀ table, filtered_factories 0 table = table.map (fun e => e.2.1)) ∧
    (∀ thr table, (∀ e ∈ table, e.2.2 < thr) → filtered_factories thr table = []) ∧
    (∀ factories thr p step res, discover_factories factories thr p step = .ok res →
      ∃ current_block table, Provider.get_block_number p = .ok current_block ∧
        (scanT p (factories.map DiscoverableFactory.discovery_event_signature) step
            current_block (current_block + 1) 0 []).2 = .ok table ∧
        res = filtered_factories thr table) := by
  refine ⟨?_, ?_, ?_, ?_⟩
  · intro thr table f
    constructor
    · intro hmem
      rw [filtered_factories, List.mem_map] at hmem
      obtain ⟨e, he, hef⟩ := hmem
      rw [List.mem_filter] at he
      refine ⟨e.1, e.2.2, ?_, by simpa using he.2⟩
      have : (e.1, f, e.2.2) = e := by
        rw [← hef]
      exact this ▸ he.1
    · rintro ⟨a, c, hmem, hc⟩
      rw [filtered_factories, List.mem_map]
      exact ⟨(a, f, c), List.mem_filter.mpr ⟨hmem, by simpa using hc⟩, rfl⟩
  · intro table
    rw [filtered_factories, List.filter_eq_self.mpr]
    intro e _
    simp
  · intro thr table h
    have hnil : table.filter (fun e => thr ≤ e.2.2) = [] := by
      refine List.filter_eq_nil_iff.mpr ?_
      intro e he
      have := h e he
      simp only [decide_eq_true_eq]
      omega
    rw [filtered_factories, hnil]
    rfl
  · intro factories thr p step res h
    unfold discover_factories at h
    cases hbn : p.get_block_number with
    | error e => rw [hbn] at h; exact absurd h (by simp)
    | ok current_block =>
      rw [hbn] at h
      simp only [] at h
      cases hscan : (scanT p (factories.map DiscoverableFactory.discovery_event_signature)
          step current_block (current_block + 1) 0 []).2 with
      | ok table =>
        rw [hscan] at h
        refine ⟨current_block, table, rfl, hscan, ?_⟩
        injection h with h
        exact h.symm
      | err e => rw [hscan] at h; exact absurd h (by simp)
      | panic => rw [hscan] at h; exact absurd h (by simp)
      | diverge => rw [hscan] at h; exact absurd h (by simp)

/-- C4 (witness): a table whose only entry has count 0 filtered at
threshold 1 gives the empty collection. -/
theorem c4_witness :
    filtered_factories 1 [(5, Factory.UniswapV2Factory ⟨5, 3⟩, 0)] = [] :=
  c4_threshold_filter.2.2.1 1 [(5, Factory.UniswapV2Factory ⟨5, 3⟩, 0)] (by decide)

/-- C6: a log for a new address whose topic0 decodes to a registered variant
but which carries no block height makes the whole pass fail with
`BlockNumberNotFound` — the remaining logs are not processed and no table
(hence no record) is produced; and the topic0 decode is checked first: for a
new address whose decode fails, the decode error is returned even when the
block height is also absent. -/
theorem c6_missing_block_number (st : Table) (l : Log) (t0 : Nat) (f : Factory)
    (h1 : lookupTable st l.address = none) (h2 : l.topics[0]? = some t0)
    (h3 : Factory.try_from t0 = .ok f) (h4 : l.block_number = none) :
    (∀ rest, processLogs st (l :: rest) = .err .BlockNumberNotFound) ∧
    (∀ st' l' t0' e, lookupTable st' l'.address = none → l'.topics[0]? = some t0' →
      Factory.try_from t0' = .error e → processLog st' l' = .err e) := by
  constructor
  · have hm : mkRecord l = .err .BlockNumberNotFound := by
      unfold mkRecord
      rw [h2]
      simp only [h3]
      cases f <;> simp [h4]
    intro rest
    rw [processLogs_cons, processLog_new_err st l .BlockNumberNotFound h1 hm]
  · intro st' l' t0' e hl ht0 he
    have hm : mkRecord l' = .err e := by
      unfold mkRecord
      rw [ht0]
      simp only [he]
    exact processLog_new_err st' l' e hl hm

/-- C6 (witness): a new-address V3 creation log with no block number aborts
the pass with `BlockNumberNotFound`. -/
theorem c6_witness :
    processLogs [] [exampleLogNoBlock] = .err .BlockNumberNotFound :=
  (c6_missing_block_number [] exampleLogNoBlock POOL_CREATED_EVENT_SIGNATURE
    (.UniswapV3Factory ⟨0, 0⟩) rfl (by simp [exampleLogNoBlock]) rfl rfl).1 []

/-- C7: first-occurrence invariant. After a successful pass from the empty
table, every recorded factory is exactly the record built from the first
processed log of its address (so its creation_block, address and variant
come from that log); and an existing record is never modified by later
logs — only its count grows, by exactly the number of further logs of that
address. -/
theorem c7_first_occurrence (S : List Log) (t : Table)
    (hrun : processLogs [] S = .ok t) :
    (∀ a f c, lookupTable t a = some (f, c) →
      ∃ l, firstLog a S = some l ∧ mkRecord l = .ok f) ∧
    (∀ st S' t' a f c, lookupTable st a = some (f, c) →
      processLogs st S' = .ok t' → lookupTable t' a = some (f, c + occ a S')) := by
  constructor
  · intro a f c hl
    cases hfind : firstLog a S with
    | none =>
      have := processLogs_absent S [] t a rfl hrun hfind
      rw [hl] at this
      exact Option.noConfusion this
    | some l =>
      obtain ⟨f', hmk, hlook⟩ := processLogs_first S [] t a l rfl hrun hfind
      rw [hl] at hlook
      injection hlook with hlook
      injection hlook with hf hc
      refine ⟨l, rfl, ?_⟩
      rw [hf]
      exact hmk
  · intro st S' t' a f c hl hrun'
    exact processLogs_known S' st t' a f c hl hrun'

/-- C7 (witness): address 5's record in the final table is built from its
first log (block 3), even though a later log for 5 exists. -/
theorem c7_witness :
    ∃ l, firstLog 5 [exampleLog1, exampleLog2] = some l ∧
      mkRecord l = .ok (.UniswapV2Factory ⟨5, 3⟩) :=
  (c7_first_occurrence [exampleLog1, exampleLog2]
      [(5, Factory.UniswapV2Factory ⟨5, 3⟩, 1)] (by decide)).1
    5 (.UniswapV2Factory ⟨5, 3⟩) 1 (by decide)

/-- C8: a log whose address already has a table entry is handled by
incrementing that entry's count by exactly 1 — classification succeeds
unconditionally (the log's topics and block number are never inspected, so
no error can be raised even if the topics are empty or the height is
absent), the record is unchanged, and all other addresses' entries are
untouched. -/
theorem c8_known_address (st : Table) (l : Log) (f : Factory) (c : Nat)
    (h : lookupTable st l.address = some (f, c)) :
    processLog st l = .ok (incrTable st l.address) ∧
    lookupTable (incrTable st l.address) l.address = some (f, c + 1) ∧
    ∀ a, a ≠ l.address → lookupTable (incrTable st l.address) a = lookupTable st a :=
  ⟨processLog_known st l (f, c) h,
   lookupTable_incr_self st l.address f c h,
   fun a ha => lookupTable_incr_ne st l.address a ha⟩

/-- C8 (witness): a log for the known address 5 with empty topics and no
block number still just bumps the count from 2 to 3. -/
theorem c8_witness :
    lookupTable (incrTable [(5, Factory.UniswapV2Factory ⟨5, 3⟩, 2)] exampleLog2.address)
        exampleLog2.address = some (.UniswapV2Factory ⟨5, 3⟩, 2 + 1) :=
  (c8_known_address [(5, Factory.UniswapV2Factory ⟨5, 3⟩, 2)] exampleLog2
    (.UniswapV2Factory ⟨5, 3⟩) 2 rfl).2.1

/-- C10: for any log satisfying the collaborator contract's precondition
that its topics sequence is non-empty, the classifier's `topics[0]` access
is in bounds: classification of the log either succeeds or returns one of
the declared `AMMError`s — the out-of-bounds abort branch of the embedded
indexing is unreachable. -/
theorem c10_topic_index_safety (st : Table) (l : Log) (h : l.topics ≠ []) :
    (∃ t, processLog st l = .ok t) ∨ (∃ e, processLog st l = .err e) := by
  cases hl : lookupTable st l.address with
  | some fc => exact Or.inl ⟨incrTable st l.address, processLog_known st l fc hl⟩
  | none =>
    obtain ⟨t0, ts, hts⟩ : ∃ t0 ts, l.topics = t0 :: ts := by
      cases hcase : l.topics with
      | nil => exact absurd hcase h
      | cons t0 ts => exact ⟨t0, ts, rfl⟩
    have h0 : l.topics[0]? = some t0 := by rw [hts]; simp
    cases htf : Factory.try_from t0 with
    | error e =>
      have hm : mkRecord l = .err e := by
        unfold mkRecord
        rw [h0]
        simp only [htf]
      exact Or.inr ⟨e, processLog_new_err st l e hl hm⟩
    | ok f =>
      cases hbn : l.block_number with
      | none =>
        have hm : mkRecord l = .err .BlockNumberNotFound := by
          unfold mkRecord
          rw [h0]
          simp only [htf]
          cases f <;> simp [hbn]
        exact Or.inr ⟨.BlockNumberNotFound, processLog_new_err st l _ hl hm⟩
      | some b =>
        have hm : ∃ f', mkRecord l = .ok f' := by
          unfold mkRecord
          rw [h0]
          simp only [htf]
          cases f <;> simp [hbn]
        obtain ⟨f', hm⟩ := hm
        exact Or.inl ⟨(l.address, f', 0) :: st, processLog_new_ok st l f' hl hm⟩

/-- C10 (witness): classification of a well-formed creation log from the
empty table does not abort. -/
theorem c10_witness :
    (∃ t, processLog [] exampleLog1 = .ok t) ∨
      (∃ e, processLog [] exampleLog1 = .err e) :=
  c10_topic_index_safety [] exampleLog1 (by decide)
